import Mathlib

/-!
Shallow embedding of `minmax_pruning_algorithm.py`: a 3x3 tic-tac-toe
board (`State`), its terminal tests and static evaluation, and the
alpha-beta search `minimax_pruning`.  Cells hold `" "`, `"X"` or `"O"`;
we model them with the inductive `Cell`, and the two player symbols with
`Symb`.  The Python board is a 9-element list; we use `List Cell` and
read cells with `getD` (all theorems about whole boards carry the
hypothesis `b.length = 9`, the data-model invariant).

`minimax_pruning(state, player, depth, alpha, beta, indent, last_move)`
prints one trace line per node; in the three terminal branches and the
depth-0 branch that line formats `last_move + 1`, which raises a Python
`TypeError` when `last_move is None` (the default of a top-level call).
The search also raises `ValueError` when `min`/`max` is applied to an
empty score list.  Both effects are modelled with `Except Err`.

Alpha and beta start at `-math.inf` / `math.inf` and otherwise hold
integer scores, so they live in `EInt := WithBot (WithTop ℤ)` with
`⊥ = -inf` and `⊤ = +inf`.
-/

inductive Symb where
  | X : Symb
  | O : Symb
deriving DecidableEq

inductive Cell where
  | e : Cell
  | x : Cell
  | o : Cell
deriving DecidableEq

/-- The cell value written when `player` moves (`board[i] = player`). -/
def Symb.cell : Symb → Cell
  | .X => .x
  | .O => .o

/-- The opponent: `"O" if player == "X" else "X"`. -/
def Symb.opp : Symb → Symb
  | .X => .O
  | .O => .X

abbrev Board := List Cell

/-- Cell read `state.board[i]` (boards of interest have length 9, so the default
is never read in the claims' scope). -/
def cellAt (b : Board) (i : Nat) : Cell := b.getD i Cell.e

/-- Source `State.is_winner(symbol)`: three rows, three columns, two diagonals. -/
def is_winner (b : Board) (p : Symb) : Bool :=
  ([0, 3, 6].any fun i => [0, 1, 2].all fun j => cellAt b (i + j) = p.cell) ||
  ([0, 1, 2].any fun i => [0, 3, 6].all fun j => cellAt b (i + j) = p.cell) ||
  ([0, 4, 8].all fun i => cellAt b i = p.cell) ||
  ([2, 4, 6].all fun i => cellAt b i = p.cell)

/-- Source `State.is_full`: `" " not in self.board`. -/
def is_full (b : Board) : Bool := !(decide (Cell.e ∈ b))

/-- Source `State.is_terminal`. -/
def is_terminal (b : Board) : Bool :=
  is_winner b Symb.X || is_winner b Symb.O || is_full b

/-- Source `State.evaluate(player)`: 3 per occupied corner, 2 per occupied side,
4 for the occupied center, times `-1` for `"X"` and `1` for `"O"`. -/
def evaluate (b : Board) (p : Symb) : Int :=
  let sign : Int := if p = Symb.X then -1 else 1
  let fromCorners := [0, 2, 6, 8].foldl
    (fun s pos => if cellAt b pos = p.cell then s + 3 else s) (0 : Int)
  let fromSides := [1, 3, 5, 7].foldl
    (fun s pos => if cellAt b pos = p.cell then s + 2 else s) (0 : Int)
  let fromCenter : Int := if cellAt b 4 = p.cell then 4 else 0
  sign * (fromCorners + fromSides + fromCenter)

/-- Exceptions the Python function can raise: `TypeError` from
`last_move + 1` with `last_move = None`, `ValueError` from `min([])` /
`max([])`. -/
inductive Err where
  | typeError : Err
  | valueError : Err
deriving DecidableEq

/-- Extended integers for `alpha` / `beta` (`-math.inf` is `⊥`,
`math.inf` is `⊤`). -/
abbrev EInt := WithBot (WithTop Int)

def toE (n : Int) : EInt := ((n : WithTop Int) : EInt)

/-- The successor board: `new_state.board = state.board.copy();
new_state.board[i] = player`. -/
def succ_board (b : Board) (i : Nat) (p : Symb) : Board := b.set i p.cell

/-- Python `min(scores)` for a non-empty list (`0` is junk for `[]`, where the
Python raises; the caller models that branch separately). -/
def listMin : List Int → Int
  | [] => 0
  | c :: rest => rest.foldl min c

/-- Python `max(scores)` for a non-empty list (junk at `[]`, as in `listMin`). -/
def listMax : List Int → Int
  | [] => 0
  | c :: rest => rest.foldl max c

/-- Selection of `min(scores)` / `max(scores)` on lines 165-168: the
minimizer `"X"` takes the minimum, the maximizer `"O"` the maximum. -/
def bestOf (p : Symb) (scores : List Int) : Int :=
  if p = Symb.X then listMin scores else listMax scores

/-- Update `if player == "X": beta = min(beta, score) else: alpha = max(alpha, score)`,
alpha component. -/
def alphaUp (p : Symb) (alpha : EInt) (score : Int) : EInt :=
  if p = Symb.X then alpha else max alpha (toE score)

/-- Beta component of the same update. -/
def betaUp (p : Symb) (beta : EInt) (score : Int) : EInt :=
  if p = Symb.X then min beta (toE score) else beta

/-- The `for i in range(9)` loop of `minimax_pruning` (lines 147-163):
explore empty cells in ascending order, append the child's score and
`i + 1`, tighten `beta` (mover `"X"`) or `alpha` (mover `"O"`), and stop
as soon as `beta <= alpha`.  `recur` is the recursive call at depth
`depth - 1`; a propagated exception aborts the loop. -/
def abLoop (recur : Board → Symb → EInt → EInt → Option Nat → Except Err (Int × Option Nat))
    (b : Board) (p : Symb) :
    List Nat → EInt → EInt → List Int → List Nat → Except Err (List Int × List Nat)
  | [], _, _, scores, moves => .ok (scores, moves)
  | i :: rest, alpha, beta, scores, moves =>
    if cellAt b i = Cell.e then
      match recur (succ_board b i p) p.opp alpha beta (some i) with
      | .error err => .error err
      | .ok (score, _) =>
        if betaUp p beta score ≤ alphaUp p alpha score then
          .ok (scores ++ [score], moves ++ [i + 1])
        else
          abLoop recur b p rest (alphaUp p alpha score) (betaUp p beta score)
            (scores ++ [score]) (moves ++ [i + 1])
    else abLoop recur b p rest alpha beta scores moves

/-- Source `minimax_pruning(state, player, depth, alpha, beta, indent, last_move)`.
Terminal branches in source order (`"X"` wins, `"O"` wins, full,
`depth == 0`), each of which formats `last_move + 1` before returning
and therefore raises `TypeError` when `last_move` is `none`; then the
alpha-beta loop, `best_score_index = scores.index(min/max(scores))`
(a `ValueError` when `scores` is empty) and the `(score, move)` pair
with `move = moves[best_score_index]`. -/
def minimax_pruning : Nat → Board → Symb → EInt → EInt → Option Nat →
    Except Err (Int × Option Nat)
  | d, b, p, alpha, beta, lm =>
    if is_winner b Symb.X then
      match lm with
      | none => .error Err.typeError
      | some _ => .ok (-100, none)
    else if is_winner b Symb.O then
      match lm with
      | none => .error Err.typeError
      | some _ => .ok (100, none)
    else if is_full b then
      match lm with
      | none => .error Err.typeError
      | some _ => .ok (0, none)
    else
      match d with
      | 0 =>
        match lm with
        | none => .error Err.typeError
        | some _ => .ok (evaluate b p.opp, none)
      | d' + 1 =>
        match abLoop (fun b' p' a' b'' lm' => minimax_pruning d' b' p' a' b'' lm')
            b p (List.range 9) alpha beta [] [] with
        | .error err => .error err
        | .ok (scores, moves) =>
          match scores with
          | [] => .error Err.valueError
          | s :: rest =>
            .ok (bestOf p (s :: rest),
                 some (moves.getD ((s :: rest).indexOf (bestOf p (s :: rest))) 0))

/-- The legal moves of `b` among indices `0..8`, in ascending order. -/
def childIdxs (b : Board) : List Nat :=
  (List.range 9).filter fun i => cellAt b i = Cell.e

/-- Spec-side reference: the unpruned full-width minimax with the same
terminal scoring, the same depth-0 cutoff evaluation and the same
ascending-index move order, returning the score only. -/
def fullScore : Nat → Board → Symb → Int
  | d, b, p =>
    if is_winner b Symb.X then -100
    else if is_winner b Symb.O then 100
    else if is_full b then 0
    else
      match d with
      | 0 => evaluate b p.opp
      | d' + 1 =>
        bestOf p ((childIdxs b).map fun i => fullScore d' (succ_board b i p) p.opp)

/-- Full-minimax values of the children of `b` drawn from the index
list `idxs`. -/
def vals (d : Nat) (b : Board) (p : Symb) (idxs : List Nat) : List Int :=
  (idxs.filter fun i => cellAt b i = Cell.e).map
    fun i => fullScore d (succ_board b i p) p.opp

/-- Predicate `is_terminal` is false exactly when all three terminal tests fail. -/
lemma is_terminal_false {b : Board} :
    is_terminal b = false ↔
      is_winner b Symb.X = false ∧ is_winner b Symb.O = false ∧ is_full b = false := by
  simp [is_terminal, and_assoc]

/-- Any terminal branch called with `last_move = None` raises `TypeError`. -/
lemma minimax_terminal_none {b : Board} (h : is_terminal b = true) (d : Nat) (p : Symb)
    (alpha beta : EInt) :
    minimax_pruning d b p alpha beta none = .error Err.typeError := by
  cases hX : is_winner b Symb.X with
  | true => cases d <;> simp [minimax_pruning, hX]
  | false =>
    cases hO : is_winner b Symb.O with
    | true => cases d <;> simp [minimax_pruning, hX, hO]
    | false =>
      have hF : is_full b = true := by simpa [is_terminal, hX, hO] using h
      cases d <;> simp [minimax_pruning, hX, hO, hF]

/-- An `"X"`-win board returns `(-100, None)` in any recursive call. -/
lemma minimax_winX {b : Board} (h : is_winner b Symb.X = true) (d : Nat) (p : Symb)
    (alpha beta : EInt) (i : Nat) :
    minimax_pruning d b p alpha beta (some i) = .ok (-100, none) := by
  cases d <;> simp [minimax_pruning, h]

/-- An `"O"`-win board (with no `"X"` win) returns `(100, None)` in any
recursive call. -/
lemma minimax_winO {b : Board} (hX : is_winner b Symb.X = false)
    (hO : is_winner b Symb.O = true) (d : Nat) (p : Symb) (alpha beta : EInt) (i : Nat) :
    minimax_pruning d b p alpha beta (some i) = .ok (100, none) := by
  cases d <;> simp [minimax_pruning, hX, hO]

/-- A full, winnerless board returns `(0, None)` in any recursive call. -/
lemma minimax_full {b : Board} (hX : is_winner b Symb.X = false)
    (hO : is_winner b Symb.O = false) (hF : is_full b = true) (d : Nat) (p : Symb)
    (alpha beta : EInt) (i : Nat) :
    minimax_pruning d b p alpha beta (some i) = .ok (0, none) := by
  cases d <;> simp [minimax_pruning, hX, hO, hF]

/-- The `depth == 0` cutoff in a recursive call: the opponent's static
evaluation, move `None`. -/
lemma minimax_zero {b : Board} (h : is_terminal b = false) (p : Symb)
    (alpha beta : EInt) (i : Nat) :
    minimax_pruning 0 b p alpha beta (some i) = .ok (evaluate b p.opp, none) := by
  obtain ⟨hX, hO, hF⟩ := is_terminal_false.mp h
  simp [minimax_pruning, hX, hO, hF]

/-- The `depth == 0` cutoff at the top level (`last_move = None`) raises
`TypeError` while formatting its trace line. -/
lemma minimax_zero_none {b : Board} (h : is_terminal b = false) (p : Symb)
    (alpha beta : EInt) :
    minimax_pruning 0 b p alpha beta none = .error Err.typeError := by
  obtain ⟨hX, hO, hF⟩ := is_terminal_false.mp h
  simp [minimax_pruning, hX, hO, hF]

/-- Unfolding of the recursive phase on a non-terminal board. -/
lemma minimax_rec {b : Board} (h : is_terminal b = false) (d' : Nat) (p : Symb)
    (alpha beta : EInt) (lm : Option Nat) :
    minimax_pruning (d' + 1) b p alpha beta lm =
      match abLoop (minimax_pruning d') b p (List.range 9) alpha beta [] [] with
      | .error err => .error err
      | .ok (scores, moves) =>
        match scores with
        | [] => .error Err.valueError
        | s :: rest =>
          .ok (bestOf p (s :: rest),
               some (moves.getD ((s :: rest).indexOf (bestOf p (s :: rest))) 0)) := by
  obtain ⟨hX, hO, hF⟩ := is_terminal_false.mp h
  simp [minimax_pruning, hX, hO, hF]

/-- Unfolding of the recursive phase of the unpruned search. -/
lemma fullScore_rec {b : Board} (h : is_terminal b = false) (d' : Nat) (p : Symb) :
    fullScore (d' + 1) b p =
      bestOf p ((childIdxs b).map fun i => fullScore d' (succ_board b i p) p.opp) := by
  obtain ⟨hX, hO, hF⟩ := is_terminal_false.mp h
  simp [fullScore, hX, hO, hF]

lemma toE_le_toE {a c : Int} : toE a ≤ toE c ↔ a ≤ c := by simp [toE]

lemma toE_lt_top (a : Int) : toE a < ⊤ := by
  simpa [toE] using WithBot.coe_lt_coe.mpr (WithTop.coe_lt_top a)

lemma bot_lt_toE (a : Int) : (⊥ : EInt) < toE a := WithBot.bot_lt_coe _

lemma foldl_max_le {z : Int} : ∀ (l : List Int) (c : Int), c ≤ z → (∀ a ∈ l, a ≤ z) →
    l.foldl max c ≤ z
  | [], c, hc, _ => hc
  | a :: t, c, hc, hl =>
    foldl_max_le t (max c a) (max_le hc (hl a (by simp)))
      fun x hx => hl x (by simp [hx])

lemma le_foldl_max : ∀ (l : List Int) (c : Int), c ≤ l.foldl max c
  | [], _ => le_refl _
  | a :: t, c => le_trans (le_max_left c a) (le_foldl_max t (max c a))

lemma mem_le_foldl_max : ∀ (l : List Int) (c a : Int), a ∈ l → a ≤ l.foldl max c
  | x :: t, c, a, h => by
    rcases List.mem_cons.mp h with h | h
    · subst h; exact le_trans (le_max_right c a) (le_foldl_max t _)
    · exact mem_le_foldl_max t (max c x) a h

lemma foldl_max_mem : ∀ (l : List Int) (c : Int), l.foldl max c = c ∨ l.foldl max c ∈ l
  | [], c => Or.inl rfl
  | a :: t, c => by
    rcases foldl_max_mem t (max c a) with h | h
    · rcases max_cases c a with ⟨he, _⟩ | ⟨he, _⟩
      · exact Or.inl (by simpa [he] using h)
      · exact Or.inr (by rw [List.foldl_cons, h, he]; simp)
    · exact Or.inr (by simp [List.foldl_cons, h])

lemma listMax_mem : ∀ {l : List Int}, l ≠ [] → listMax l ∈ l
  | c :: t, _ => by
    rcases foldl_max_mem t c with h | h
    · simp [listMax, h]
    · simp [listMax, h]

lemma le_listMax {l : List Int} {a : Int} (h : a ∈ l) : a ≤ listMax l := by
  match l, h with
  | c :: t, h =>
    rcases List.mem_cons.mp h with rfl | h
    · exact le_foldl_max t a
    · exact mem_le_foldl_max t c a h

lemma listMax_le {l : List Int} {z : Int} (h : l ≠ []) (h2 : ∀ a ∈ l, a ≤ z) :
    listMax l ≤ z := by
  match l, h with
  | c :: t, _ => exact foldl_max_le t c (h2 c (by simp)) fun a ha => h2 a (by simp [ha])

lemma listMax_cons {c : Int} {l : List Int} (h : l ≠ []) :
    listMax (c :: l) = max c (listMax l) := by
  refine le_antisymm ?_ ?_
  · refine listMax_le (by simp) fun a ha => ?_
    rcases List.mem_cons.mp ha with rfl | ha
    · exact le_max_left _ _
    · exact le_trans (le_listMax ha) (le_max_right _ _)
  · refine max_le (le_listMax (by simp)) (listMax_le h fun a ha => le_listMax (by simp [ha]))

lemma foldl_min_ge {z : Int} : ∀ (l : List Int) (c : Int), z ≤ c → (∀ a ∈ l, z ≤ a) →
    z ≤ l.foldl min c
  | [], c, hc, _ => hc
  | a :: t, c, hc, hl =>
    foldl_min_ge t (min c a) (le_min hc (hl a (by simp)))
      fun x hx => hl x (by simp [hx])

lemma foldl_min_le : ∀ (l : List Int) (c : Int), l.foldl min c ≤ c
  | [], _ => le_refl _
  | a :: t, c => le_trans (foldl_min_le t (min c a)) (min_le_left c a)

lemma foldl_min_le_mem : ∀ (l : List Int) (c a : Int), a ∈ l → l.foldl min c ≤ a
  | x :: t, c, a, h => by
    rcases List.mem_cons.mp h with h | h
    · subst h; exact le_trans (foldl_min_le t _) (min_le_right c a)
    · exact foldl_min_le_mem t (min c x) a h

lemma foldl_min_mem : ∀ (l : List Int) (c : Int), l.foldl min c = c ∨ l.foldl min c ∈ l
  | [], c => Or.inl rfl
  | a :: t, c => by
    rcases foldl_min_mem t (min c a) with h | h
    · rcases min_cases c a with ⟨he, _⟩ | ⟨he, _⟩
      · exact Or.inl (by simpa [he] using h)
      · exact Or.inr (by rw [List.foldl_cons, h, he]; simp)
    · exact Or.inr (by simp [List.foldl_cons, h])

lemma listMin_mem : ∀ {l : List Int}, l ≠ [] → listMin l ∈ l
  | c :: t, _ => by
    rcases foldl_min_mem t c with h | h
    · simp [listMin, h]
    · simp [listMin, h]

lemma listMin_le {l : List Int} {a : Int} (h : a ∈ l) : listMin l ≤ a := by
  match l, h with
  | c :: t, h =>
    rcases List.mem_cons.mp h with rfl | h
    · exact foldl_min_le t a
    · exact foldl_min_le_mem t c a h

lemma le_listMin {l : List Int} {z : Int} (h : l ≠ []) (h2 : ∀ a ∈ l, z ≤ a) :
    z ≤ listMin l := by
  match l, h with
  | c :: t, _ => exact foldl_min_ge t c (h2 c (by simp)) fun a ha => h2 a (by simp [ha])

lemma listMin_cons {c : Int} {l : List Int} (h : l ≠ []) :
    listMin (c :: l) = min c (listMin l) := by
  refine le_antisymm ?_ ?_
  · exact le_min (listMin_le (by simp)) (le_listMin h fun a ha => listMin_le (by simp [ha]))
  · refine le_listMin (by simp) fun a ha => ?_
    rcases List.mem_cons.mp ha with rfl | ha
    · exact min_le_left _ _
    · exact le_trans (min_le_right _ _) (listMin_le ha)

/-- The member of `scores` the selected extremum lands on. -/
lemma bestOf_mem {p : Symb} {l : List Int} (h : l ≠ []) : bestOf p l ∈ l := by
  unfold bestOf
  split
  · exact listMin_mem h
  · exact listMax_mem h

section LoopSteps

variable {recur : Board → Symb → EInt → EInt → Option Nat → Except Err (Int × Option Nat)}
variable {b : Board} {p : Symb} {i : Nat} {rest : List Nat} {alpha beta : EInt}
variable {S : List Int} {M : List Nat}

lemma abLoop_nil : abLoop recur b p [] alpha beta S M = .ok (S, M) := rfl

lemma abLoop_skip (hc : cellAt b i ≠ Cell.e) :
    abLoop recur b p (i :: rest) alpha beta S M = abLoop recur b p rest alpha beta S M := by
  simp [abLoop, hc]

lemma abLoop_err {err : Err} (hc : cellAt b i = Cell.e)
    (hr : recur (succ_board b i p) p.opp alpha beta (some i) = .error err) :
    abLoop recur b p (i :: rest) alpha beta S M = .error err := by
  simp [abLoop, hc, hr]

lemma abLoop_break {score : Int} {mv : Option Nat} (hc : cellAt b i = Cell.e)
    (hr : recur (succ_board b i p) p.opp alpha beta (some i) = .ok (score, mv))
    (hb : betaUp p beta score ≤ alphaUp p alpha score) :
    abLoop recur b p (i :: rest) alpha beta S M = .ok (S ++ [score], M ++ [i + 1]) := by
  simp [abLoop, hc, hr, hb]

lemma abLoop_cont {score : Int} {mv : Option Nat} (hc : cellAt b i = Cell.e)
    (hr : recur (succ_board b i p) p.opp alpha beta (some i) = .ok (score, mv))
    (hb : ¬betaUp p beta score ≤ alphaUp p alpha score) :
    abLoop recur b p (i :: rest) alpha beta S M =
      abLoop recur b p rest (alphaUp p alpha score) (betaUp p beta score)
        (S ++ [score]) (M ++ [i + 1]) := by
  simp [abLoop, hc, hr, hb]

end LoopSteps

/-- The score/move accumulators are write-only: running the loop with
accumulators `S`, `M` appends to what the empty-start run produces. -/
lemma abLoop_acc
    (recur : Board → Symb → EInt → EInt → Option Nat → Except Err (Int × Option Nat))
    (b : Board) (p : Symb) :
    ∀ (idxs : List Nat) (alpha beta : EInt) (S : List Int) (M : List Nat),
      abLoop recur b p idxs alpha beta S M =
        match abLoop recur b p idxs alpha beta [] [] with
        | .error err => .error err
        | .ok (S', M') => .ok (S ++ S', M ++ M') := by
  intro idxs
  induction idxs with
  | nil => intro alpha beta S M; simp [abLoop_nil]
  | cons i rest IH =>
    intro alpha beta S M
    by_cases hc : cellAt b i = Cell.e
    · cases hr : recur (succ_board b i p) p.opp alpha beta (some i) with
      | error err => rw [abLoop_err hc hr, abLoop_err hc hr]
      | ok v =>
        obtain ⟨score, mv⟩ := v
        by_cases hb : betaUp p beta score ≤ alphaUp p alpha score
        · rw [abLoop_break hc hr hb, abLoop_break hc hr hb]
          simp
        · rw [abLoop_cont hc hr hb, abLoop_cont hc hr hb]
          simp only [List.nil_append]
          rw [IH _ _ (S ++ [score]) (M ++ [i + 1]), IH _ _ [score] [i + 1]]
          cases abLoop recur b p rest (alphaUp p alpha score) (betaUp p beta score) [] [] with
          | error err => rfl
          | ok v' => obtain ⟨S', M'⟩ := v'; simp
    · rw [abLoop_skip hc, abLoop_skip hc, IH]

/-- Structure of a successful loop run: every recorded score is some
child's returned score, every recorded move is `i + 1` for an explored
empty cell `i`, scores and moves stay in lock-step, and the score list
is empty only when no index in `idxs` denotes an empty cell. -/
lemma abLoop_mem
    (recur : Board → Symb → EInt → EInt → Option Nat → Except Err (Int × Option Nat))
    (b : Board) (p : Symb) :
    ∀ (idxs : List Nat) (alpha beta : EInt) (S : List Int) (M : List Nat),
      abLoop recur b p idxs alpha beta [] [] = .ok (S, M) →
      (∀ s ∈ S, ∃ i alpha' beta' m', i ∈ idxs ∧ cellAt b i = Cell.e ∧
          recur (succ_board b i p) p.opp alpha' beta' (some i) = .ok (s, m')) ∧
      (∀ mv ∈ M, ∃ i, i ∈ idxs ∧ cellAt b i = Cell.e ∧ mv = i + 1) ∧
      S.length = M.length ∧
      (S = [] → ∀ i ∈ idxs, cellAt b i ≠ Cell.e) := by
  intro idxs
  induction idxs with
  | nil =>
    intro alpha beta S M h
    rw [abLoop_nil] at h
    obtain ⟨rfl, rfl⟩ : S = [] ∧ M = [] := by
      refine ⟨?_, ?_⟩ <;> cases h <;> rfl
    simp
  | cons i rest IH =>
    intro alpha beta S M h
    by_cases hc : cellAt b i = Cell.e
    · cases hr : recur (succ_board b i p) p.opp alpha beta (some i) with
      | error err => rw [abLoop_err hc hr] at h; cases h
      | ok v =>
        obtain ⟨score, mv⟩ := v
        by_cases hb : betaUp p beta score ≤ alphaUp p alpha score
        · rw [abLoop_break hc hr hb] at h
          obtain ⟨rfl, rfl⟩ : S = [score] ∧ M = [i + 1] := by
            refine ⟨?_, ?_⟩ <;> cases h <;> rfl
          refine ⟨?_, ?_, rfl, ?_⟩
          · intro s hs
            rcases List.mem_singleton.mp hs with rfl
            exact ⟨i, alpha, beta, mv, by simp, hc, hr⟩
          · intro m hm
            rcases List.mem_singleton.mp hm with rfl
            exact ⟨i, by simp, hc, rfl⟩
          · intro hS; cases hS
        · rw [abLoop_cont hc hr hb] at h
          rw [abLoop_acc] at h
          simp only [List.nil_append] at h
          cases habs : abLoop recur b p rest (alphaUp p alpha score) (betaUp p beta score)
              [] [] with
          | error err => rw [habs] at h; cases h
          | ok v' =>
            obtain ⟨S', M'⟩ := v'
            rw [habs] at h
            obtain ⟨rfl, rfl⟩ : S = score :: S' ∧ M = (i + 1) :: M' := by
              refine ⟨?_, ?_⟩ <;> cases h <;> rfl
            obtain ⟨h1, h2, h3, _⟩ := IH _ _ _ _ habs
            refine ⟨?_, ?_, by simp [h3], ?_⟩
            · intro s hs
              rcases List.mem_cons.mp hs with rfl | hs
              · exact ⟨i, alpha, beta, mv, by simp, hc, hr⟩
              · obtain ⟨j, a', b', m', hj, hcj, hrj⟩ := h1 s hs
                exact ⟨j, a', b', m', by simp [hj], hcj, hrj⟩
            · intro m hm
              rcases List.mem_cons.mp hm with rfl | hm
              · exact ⟨i, by simp, hc, rfl⟩
              · obtain ⟨j, hj, hcj, hmj⟩ := h2 m hm
                exact ⟨j, by simp [hj], hcj, hmj⟩
            · intro hS; cases hS
    · rw [abLoop_skip hc] at h
      obtain ⟨h1, h2, h3, h4⟩ := IH _ _ _ _ h
      refine ⟨?_, ?_, h3, ?_⟩
      · intro s hs
        obtain ⟨j, a', b', m', hj, hcj, hrj⟩ := h1 s hs
        exact ⟨j, a', b', m', by simp [hj], hcj, hrj⟩
      · intro m hm
        obtain ⟨j, hj, hcj, hmj⟩ := h2 m hm
        exact ⟨j, by simp [hj], hcj, hmj⟩
      · intro hS j hj
        rcases List.mem_cons.mp hj with rfl | hj
        · exact hc
        · exact h4 hS j hj

/-- The loop cannot raise by itself: when every recursive call on an
explored child returns, the loop returns. -/
lemma abLoop_total
    (recur : Board → Symb → EInt → EInt → Option Nat → Except Err (Int × Option Nat))
    (b : Board) (p : Symb) :
    ∀ (idxs : List Nat) (alpha beta : EInt),
      (∀ i ∈ idxs, cellAt b i = Cell.e → ∀ alpha' beta', ∃ r,
          recur (succ_board b i p) p.opp alpha' beta' (some i) = .ok r) →
      ∃ S M, abLoop recur b p idxs alpha beta [] [] = .ok (S, M) := by
  intro idxs
  induction idxs with
  | nil => intro alpha beta _; exact ⟨[], [], abLoop_nil⟩
  | cons i rest IH =>
    intro alpha beta hrec
    by_cases hc : cellAt b i = Cell.e
    · obtain ⟨⟨score, mv⟩, hr⟩ := hrec i (by simp) hc alpha beta
      by_cases hb : betaUp p beta score ≤ alphaUp p alpha score
      · exact ⟨[score], [i + 1], by rw [abLoop_break hc hr hb]; simp⟩
      · obtain ⟨S', M', habs⟩ := IH (alphaUp p alpha score) (betaUp p beta score)
          fun j hj hcj => hrec j (by simp [hj]) hcj
        refine ⟨score :: S', (i + 1) :: M', ?_⟩
        rw [abLoop_cont hc hr hb, abLoop_acc, habs]
        simp
    · obtain ⟨S, M, habs⟩ := IH alpha beta fun j hj hcj => hrec j (by simp [hj]) hcj
      exact ⟨S, M, by rw [abLoop_skip hc]; exact habs⟩

lemma succ_board_length (b : Board) (i : Nat) (p : Symb) :
    (succ_board b i p).length = b.length := by simp [succ_board]

/-- A 9-cell board that is not full has an empty cell at some index in
`0..8`. -/
lemma exists_empty_index {b : Board} (hb : b.length = 9) (hF : is_full b = false) :
    ∃ i, i ∈ List.range 9 ∧ cellAt b i = Cell.e := by
  have hmem : Cell.e ∈ b := by simpa [is_full] using hF
  obtain ⟨n, hn, he⟩ := List.mem_iff_getElem.mp hmem
  refine ⟨n, List.mem_range.mpr (by omega), ?_⟩
  simp [cellAt, List.getD_eq_getElem?_getD, List.getElem?_eq_getElem hn, he]

/-- Totality: on a 9-cell board, a recursive call (`last_move` a cell
index) always returns, and so does a top-level call whose root is
non-terminal with positive depth. -/
lemma minimax_total :
    ∀ (d : Nat) (b : Board) (p : Symb) (alpha beta : EInt) (lm : Option Nat),
      b.length = 9 → (lm = none → is_terminal b = false ∧ d ≠ 0) →
      ∃ r, minimax_pruning d b p alpha beta lm = .ok r := by
  intro d
  induction d with
  | zero =>
    intro b p alpha beta lm hb hlm
    cases lm with
    | none => exact absurd rfl (hlm rfl).2
    | some i =>
      cases hX : is_winner b Symb.X with
      | true => exact ⟨_, minimax_winX hX 0 p alpha beta i⟩
      | false =>
        cases hO : is_winner b Symb.O with
        | true => exact ⟨_, minimax_winO hX hO 0 p alpha beta i⟩
        | false =>
          cases hF : is_full b with
          | true => exact ⟨_, minimax_full hX hO hF 0 p alpha beta i⟩
          | false =>
            exact ⟨_, minimax_zero (is_terminal_false.mpr ⟨hX, hO, hF⟩) p alpha beta i⟩
  | succ d' IH =>
    intro b p alpha beta lm hb hlm
    cases hT : is_terminal b with
    | true =>
      cases lm with
      | none => rw [(hlm rfl).1] at hT; cases hT
      | some i =>
        cases hX : is_winner b Symb.X with
        | true => exact ⟨_, minimax_winX hX (d' + 1) p alpha beta i⟩
        | false =>
          cases hO : is_winner b Symb.O with
          | true => exact ⟨_, minimax_winO hX hO (d' + 1) p alpha beta i⟩
          | false =>
            have hF : is_full b = true := by simpa [is_terminal, hX, hO] using hT
            exact ⟨_, minimax_full hX hO hF (d' + 1) p alpha beta i⟩
    | false =>
      obtain ⟨S, M, hok⟩ := abLoop_total (minimax_pruning d') b p (List.range 9) alpha beta
        fun i _ hci alpha' beta' =>
          IH (succ_board b i p) p.opp alpha' beta' (some i)
            (by rw [succ_board_length, hb]) (by intro h; cases h)
      have hSne : S ≠ [] := by
        intro hS
        obtain ⟨i, hi, he⟩ := exists_empty_index hb (is_terminal_false.mp hT).2.2
        exact (abLoop_mem _ _ _ _ _ _ _ _ hok).2.2.2 hS i hi he
      obtain ⟨s0, rest, rfl⟩ := List.exists_cons_of_ne_nil hSne
      rw [minimax_rec hT d' p alpha beta lm, hok]
      exact ⟨_, rfl⟩

set_option maxHeartbeats 2000000 in
/-- The static evaluation is far inside the terminal score band. -/
lemma evaluate_bound (b : Board) (p : Symb) :
    -100 ≤ evaluate b p ∧ evaluate b p ≤ 100 := by
  unfold evaluate
  cases p <;>
    simp only [List.foldl_cons, List.foldl_nil, reduceIte] <;>
    split_ifs <;> norm_num

/-- Every score the search returns lies in `[-100, 100]`. -/
lemma minimax_bound :
    ∀ (d : Nat) (b : Board) (p : Symb) (alpha beta : EInt) (lm : Option Nat)
      (s : Int) (m : Option Nat),
      minimax_pruning d b p alpha beta lm = .ok (s, m) → -100 ≤ s ∧ s ≤ 100 := by
  intro d
  induction d with
  | zero =>
    intro b p alpha beta lm s m h
    cases lm with
    | none =>
      cases hT : is_terminal b with
      | true => rw [minimax_terminal_none hT] at h; cases h
      | false => rw [minimax_zero_none hT] at h; cases h
    | some i =>
      cases hX : is_winner b Symb.X with
      | true => rw [minimax_winX hX] at h; cases h; norm_num
      | false =>
        cases hO : is_winner b Symb.O with
        | true => rw [minimax_winO hX hO] at h; cases h; norm_num
        | false =>
          cases hF : is_full b with
          | true => rw [minimax_full hX hO hF] at h; cases h; norm_num
          | false =>
            rw [minimax_zero (is_terminal_false.mpr ⟨hX, hO, hF⟩)] at h
            cases h
            exact evaluate_bound b p.opp
  | succ d' IH =>
    intro b p alpha beta lm s m h
    cases hT : is_terminal b with
    | true =>
      cases lm with
      | none => rw [minimax_terminal_none hT] at h; cases h
      | some i =>
        cases hX : is_winner b Symb.X with
        | true => rw [minimax_winX hX] at h; cases h; norm_num
        | false =>
          cases hO : is_winner b Symb.O with
          | true => rw [minimax_winO hX hO] at h; cases h; norm_num
          | false =>
            have hF : is_full b = true := by simpa [is_terminal, hX, hO] using hT
            rw [minimax_full hX hO hF] at h; cases h; norm_num
    | false =>
      rw [minimax_rec hT] at h
      cases habs : abLoop (minimax_pruning d') b p (List.range 9) alpha beta [] [] with
      | error err => rw [habs] at h; cases h
      | ok v =>
        obtain ⟨S, M⟩ := v
        rw [habs] at h
        cases S with
        | nil => cases h
        | cons s0 rest =>
          have hs : s = bestOf p (s0 :: rest) := by cases h; rfl
          have hmem : s ∈ s0 :: rest := hs ▸ bestOf_mem (by simp)
          obtain ⟨j, a', b', m', _, _, hrj⟩ :=
            (abLoop_mem _ _ _ _ _ _ _ _ habs).1 s hmem
          exact IH _ _ _ _ _ _ _ hrj

lemma alphaUp_X (a : EInt) (s : Int) : alphaUp Symb.X a s = a := rfl

lemma alphaUp_O (a : EInt) (s : Int) : alphaUp Symb.O a s = max a (toE s) := rfl

lemma betaUp_X (bt : EInt) (s : Int) : betaUp Symb.X bt s = min bt (toE s) := rfl

lemma betaUp_O (bt : EInt) (s : Int) : betaUp Symb.O bt s = bt := rfl

lemma vals_nil {d : Nat} {b : Board} {p : Symb} : vals d b p [] = [] := rfl

lemma vals_cons_empty {d : Nat} {b : Board} {p : Symb} {i : Nat} {rest : List Nat}
    (hc : cellAt b i = Cell.e) :
    vals d b p (i :: rest) =
      fullScore d (succ_board b i p) p.opp :: vals d b p rest := by
  simp [vals, List.filter_cons, hc]

lemma vals_cons_skip {d : Nat} {b : Board} {p : Symb} {i : Nat} {rest : List Nat}
    (hc : cellAt b i ≠ Cell.e) :
    vals d b p (i :: rest) = vals d b p rest := by
  simp [vals, List.filter_cons, hc]

lemma vals_ne_nil {d : Nat} {b : Board} {p : Symb} {idxs : List Nat} {j : Nat}
    (hj : j ∈ idxs) (hcj : cellAt b j = Cell.e) : vals d b p idxs ≠ [] := by
  simp only [vals, ne_eq, List.map_eq_nil_iff, List.filter_eq_nil_iff]
  intro hall
  exact absurd hcj (by simpa using hall j hj)

/-- Loop invariant at a maximizer node (`player == "O"`).  Relative to
the full-width child values drawn from the remaining indices, every
explored score stays below `max alpha value`, and the running maximum of
the explored scores reaches `min beta value`. -/
lemma abLoop_inv_O (d' : Nat) (b : Board) (hb : b.length = 9)
    (IH : ∀ (b' : Board) (p' : Symb) (alpha' beta' : EInt) (lm' : Option Nat)
        (s' : Int) (m' : Option Nat), b'.length = 9 → alpha' < beta' →
        minimax_pruning d' b' p' alpha' beta' lm' = .ok (s', m') →
        toE s' ≤ max alpha' (toE (fullScore d' b' p')) ∧
        min beta' (toE (fullScore d' b' p')) ≤ toE s') :
    ∀ (idxs : List Nat) (alpha beta : EInt) (S : List Int) (M : List Nat),
      alpha < beta →
      abLoop (minimax_pruning d') b Symb.O idxs alpha beta [] [] = .ok (S, M) →
      (∀ s ∈ S, toE s ≤ max alpha (toE (listMax (vals d' b Symb.O idxs)))) ∧
      (vals d' b Symb.O idxs ≠ [] →
        S ≠ [] ∧ min beta (toE (listMax (vals d' b Symb.O idxs))) ≤ toE (listMax S)) := by
  intro idxs
  induction idxs with
  | nil =>
    intro alpha beta S M _ h
    rw [abLoop_nil] at h
    obtain ⟨rfl, rfl⟩ : S = [] ∧ M = [] := by
      refine ⟨?_, ?_⟩ <;> cases h <;> rfl
    exact ⟨by simp, fun hv => absurd vals_nil hv⟩
  | cons i rest IHl =>
    intro alpha beta S M hab h
    by_cases hc : cellAt b i = Cell.e
    · rw [vals_cons_empty hc]
      set v_i := fullScore d' (succ_board b i Symb.O) Symb.O.opp with hv_i
      cases hr : minimax_pruning d' (succ_board b i Symb.O) Symb.O.opp alpha beta (some i) with
      | error err => rw [abLoop_err hc hr] at h; cases h
      | ok v =>
        obtain ⟨s_i, mv⟩ := v
        obtain ⟨hA, hB⟩ := IH _ _ _ _ _ _ _ (by rw [succ_board_length, hb]) hab hr
        rw [← hv_i] at hA hB
        have hvLV : toE v_i ≤ toE (listMax (v_i :: vals d' b Symb.O rest)) :=
          toE_le_toE.mpr (le_listMax (by simp))
        by_cases hbk : betaUp Symb.O beta s_i ≤ alphaUp Symb.O alpha s_i
        · rw [abLoop_break hc hr hbk] at h
          obtain ⟨rfl, rfl⟩ : S = [s_i] ∧ M = [i + 1] := by
            refine ⟨?_, ?_⟩ <;> cases h <;> rfl
          rw [betaUp_O, alphaUp_O] at hbk
          have hbs : beta ≤ toE s_i := by
            rcases le_max_iff.mp hbk with hba | hbs
            · exact absurd hba (not_le.mpr hab)
            · exact hbs
          constructor
          · intro s hs
            rcases List.mem_singleton.mp hs with rfl
            exact le_trans hA (max_le_max le_rfl hvLV)
          · intro _
            refine ⟨by simp, ?_⟩
            have : listMax [s_i] = s_i := rfl
            rw [this]
            exact le_trans (min_le_left _ _) hbs
        · rw [abLoop_cont hc hr hbk, abLoop_acc] at h
          simp only [List.nil_append] at h
          rw [betaUp_O, alphaUp_O] at hbk h
          cases habs : abLoop (minimax_pruning d') b Symb.O rest (max alpha (toE s_i)) beta
              [] [] with
          | error err => rw [habs] at h; cases h
          | ok v' =>
            obtain ⟨S', M'⟩ := v'
            rw [habs] at h
            obtain ⟨rfl, rfl⟩ : S = s_i :: S' ∧ M = (i + 1) :: M' := by
              refine ⟨?_, ?_⟩ <;> cases h <;> rfl
            have hab' : max alpha (toE s_i) < beta := not_le.mp hbk
            obtain ⟨h1', h2'⟩ := IHl (max alpha (toE s_i)) beta S' M' hab' habs
            have hsiLV : toE s_i ≤ max alpha (toE (listMax (v_i :: vals d' b Symb.O rest))) :=
              le_trans hA (max_le_max le_rfl hvLV)
            constructor
            · intro s hs
              rcases List.mem_cons.mp hs with rfl | hs
              · exact hsiLV
              · -- s from the tail run: bound via the rest-invariant
                have hS'ne : S' ≠ [] := by intro hS'; rw [hS'] at hs; cases hs
                obtain ⟨j, a', b', m', hj, hcj, _⟩ :=
                  (abLoop_mem _ _ _ _ _ _ _ _ habs).1 s hs
                have hvr : vals d' b Symb.O rest ≠ [] := vals_ne_nil hj hcj
                have hLrLV : toE (listMax (vals d' b Symb.O rest)) ≤
                    toE (listMax (v_i :: vals d' b Symb.O rest)) :=
                  toE_le_toE.mpr (le_listMax (List.mem_cons_of_mem _ (listMax_mem hvr)))
                refine le_trans (h1' s hs)
                  (max_le ?_ (le_trans hLrLV (le_max_right _ _)))
                exact max_le (le_max_left _ _) hsiLV
            · intro _
              refine ⟨by simp, ?_⟩
              by_cases hS' : S' = []
              · subst hS'
                have hvr : vals d' b Symb.O rest = [] := by
                  by_contra hvr
                  obtain ⟨w, hw⟩ := List.exists_mem_of_ne_nil _ hvr
                  have := (abLoop_mem _ _ _ _ _ _ _ _ habs).2.2.2 rfl
                  simp only [vals, List.mem_map, List.mem_filter] at hw
                  obtain ⟨j, ⟨hj, hcj⟩, _⟩ := hw
                  exact this j hj (by simpa using hcj)
                rw [hvr]
                have h1 : listMax [v_i] = v_i := rfl
                have h2 : listMax [s_i] = s_i := rfl
                rw [h1, h2]
                exact hB
              · have hvr : vals d' b Symb.O rest ≠ [] := by
                  obtain ⟨s', hs'⟩ := List.exists_mem_of_ne_nil _ hS'
                  obtain ⟨j, a', b', m', hj, hcj, _⟩ :=
                    (abLoop_mem _ _ _ _ _ _ _ _ habs).1 s' hs'
                  exact vals_ne_nil hj hcj
                rw [listMax_cons hS', listMax_cons hvr]
                have hrest := (h2' hvr).2
                rcases le_total v_i (listMax (vals d' b Symb.O rest)) with hcmp | hcmp
                · rw [max_eq_right hcmp]
                  exact le_trans hrest (toE_le_toE.mpr (le_max_right _ _))
                · rw [max_eq_left hcmp]
                  exact le_trans hB (toE_le_toE.mpr (le_max_left _ _))
    · rw [vals_cons_skip hc]
      rw [abLoop_skip hc] at h
      exact IHl alpha beta S M hab h

/-- Loop invariant at a minimizer node (`player == "X"`), the order-dual
of `abLoop_inv_O`. -/
lemma abLoop_inv_X (d' : Nat) (b : Board) (hb : b.length = 9)
    (IH : ∀ (b' : Board) (p' : Symb) (alpha' beta' : EInt) (lm' : Option Nat)
        (s' : Int) (m' : Option Nat), b'.length = 9 → alpha' < beta' →
        minimax_pruning d' b' p' alpha' beta' lm' = .ok (s', m') →
        toE s' ≤ max alpha' (toE (fullScore d' b' p')) ∧
        min beta' (toE (fullScore d' b' p')) ≤ toE s') :
    ∀ (idxs : List Nat) (alpha beta : EInt) (S : List Int) (M : List Nat),
      alpha < beta →
      abLoop (minimax_pruning d') b Symb.X idxs alpha beta [] [] = .ok (S, M) →
      (∀ s ∈ S, min beta (toE (listMin (vals d' b Symb.X idxs))) ≤ toE s) ∧
      (vals d' b Symb.X idxs ≠ [] →
        S ≠ [] ∧ toE (listMin S) ≤ max alpha (toE (listMin (vals d' b Symb.X idxs)))) := by
  intro idxs
  induction idxs with
  | nil =>
    intro alpha beta S M _ h
    rw [abLoop_nil] at h
    obtain ⟨rfl, rfl⟩ : S = [] ∧ M = [] := by
      refine ⟨?_, ?_⟩ <;> cases h <;> rfl
    exact ⟨by simp, fun hv => absurd vals_nil hv⟩
  | cons i rest IHl =>
    intro alpha beta S M hab h
    by_cases hc : cellAt b i = Cell.e
    · rw [vals_cons_empty hc]
      set v_i := fullScore d' (succ_board b i Symb.X) Symb.X.opp with hv_i
      cases hr : minimax_pruning d' (succ_board b i Symb.X) Symb.X.opp alpha beta (some i) with
      | error err => rw [abLoop_err hc hr] at h; cases h
      | ok v =>
        obtain ⟨s_i, mv⟩ := v
        obtain ⟨hA, hB⟩ := IH _ _ _ _ _ _ _ (by rw [succ_board_length, hb]) hab hr
        rw [← hv_i] at hA hB
        have hvLV : toE (listMin (v_i :: vals d' b Symb.X rest)) ≤ toE v_i :=
          toE_le_toE.mpr (listMin_le (by simp))
        have hLVs : min beta (toE (listMin (v_i :: vals d' b Symb.X rest))) ≤ toE s_i :=
          le_trans (min_le_min le_rfl hvLV) hB
        by_cases hbk : betaUp Symb.X beta s_i ≤ alphaUp Symb.X alpha s_i
        · rw [abLoop_break hc hr hbk] at h
          obtain ⟨rfl, rfl⟩ : S = [s_i] ∧ M = [i + 1] := by
            refine ⟨?_, ?_⟩ <;> cases h <;> rfl
          rw [betaUp_X, alphaUp_X] at hbk
          have has : toE s_i ≤ alpha := by
            rcases min_le_iff.mp hbk with hba | hsa
            · exact absurd hba (not_le.mpr hab)
            · exact hsa
          constructor
          · intro s hs
            rcases List.mem_singleton.mp hs with rfl
            exact hLVs
          · intro _
            refine ⟨by simp, ?_⟩
            have hsing : listMin [s_i] = s_i := rfl
            rw [hsing]
            exact le_trans has (le_max_left _ _)
        · rw [abLoop_cont hc hr hbk, abLoop_acc] at h
          simp only [List.nil_append] at h
          rw [betaUp_X, alphaUp_X] at hbk h
          cases habs : abLoop (minimax_pruning d') b Symb.X rest alpha (min beta (toE s_i))
              [] [] with
          | error err => rw [habs] at h; cases h
          | ok v' =>
            obtain ⟨S', M'⟩ := v'
            rw [habs] at h
            obtain ⟨rfl, rfl⟩ : S = s_i :: S' ∧ M = (i + 1) :: M' := by
              refine ⟨?_, ?_⟩ <;> cases h <;> rfl
            have hab' : alpha < min beta (toE s_i) := not_le.mp hbk
            obtain ⟨h1', h2'⟩ := IHl alpha (min beta (toE s_i)) S' M' hab' habs
            constructor
            · intro s hs
              rcases List.mem_cons.mp hs with rfl | hs
              · exact hLVs
              · have hS'ne : S' ≠ [] := by intro hS'; rw [hS'] at hs; cases hs
                obtain ⟨j, a', b', m', hj, hcj, _⟩ :=
                  (abLoop_mem _ _ _ _ _ _ _ _ habs).1 s hs
                have hvr : vals d' b Symb.X rest ≠ [] := vals_ne_nil hj hcj
                have hLVLr : toE (listMin (v_i :: vals d' b Symb.X rest)) ≤
                    toE (listMin (vals d' b Symb.X rest)) :=
                  toE_le_toE.mpr (listMin_le (List.mem_cons_of_mem _ (listMin_mem hvr)))
                refine le_trans (le_min (le_min (min_le_left _ _) hLVs) ?_) (h1' s hs)
                exact le_trans (min_le_right _ _) hLVLr
            · intro _
              refine ⟨by simp, ?_⟩
              by_cases hS' : S' = []
              · subst hS'
                have hvr : vals d' b Symb.X rest = [] := by
                  by_contra hvr
                  obtain ⟨w, hw⟩ := List.exists_mem_of_ne_nil _ hvr
                  have := (abLoop_mem _ _ _ _ _ _ _ _ habs).2.2.2 rfl
                  simp only [vals, List.mem_map, List.mem_filter] at hw
                  obtain ⟨j, ⟨hj, hcj⟩, _⟩ := hw
                  exact this j hj (by simpa using hcj)
                rw [hvr]
                have h1 : listMin [v_i] = v_i := rfl
                have h2 : listMin [s_i] = s_i := rfl
                rw [h1, h2]
                exact hA
              · have hvr : vals d' b Symb.X rest ≠ [] := by
                  obtain ⟨s', hs'⟩ := List.exists_mem_of_ne_nil _ hS'
                  obtain ⟨j, a', b', m', hj, hcj, _⟩ :=
                    (abLoop_mem _ _ _ _ _ _ _ _ habs).1 s' hs'
                  exact vals_ne_nil hj hcj
                rw [listMin_cons hS', listMin_cons hvr]
                have hrest := (h2' hvr).2
                rcases le_total (listMin (vals d' b Symb.X rest)) v_i with hcmp | hcmp
                · rw [min_eq_right hcmp]
                  exact le_trans (toE_le_toE.mpr (min_le_right _ _)) hrest
                · rw [min_eq_left hcmp]
                  exact le_trans (toE_le_toE.mpr (min_le_left _ _)) hA
    · rw [vals_cons_skip hc]
      rw [abLoop_skip hc] at h
      exact IHl alpha beta S M hab h

lemma fullScore_winX {b : Board} (h : is_winner b Symb.X = true) (d : Nat) (p : Symb) :
    fullScore d b p = -100 := by
  cases d <;> simp [fullScore, h]

lemma fullScore_winO {b : Board} (hX : is_winner b Symb.X = false)
    (hO : is_winner b Symb.O = true) (d : Nat) (p : Symb) : fullScore d b p = 100 := by
  cases d <;> simp [fullScore, hX, hO]

lemma fullScore_full {b : Board} (hX : is_winner b Symb.X = false)
    (hO : is_winner b Symb.O = false) (hF : is_full b = true) (d : Nat) (p : Symb) :
    fullScore d b p = 0 := by
  cases d <;> simp [fullScore, hX, hO, hF]

lemma fullScore_zero {b : Board} (h : is_terminal b = false) (p : Symb) :
    fullScore 0 b p = evaluate b p.opp := by
  obtain ⟨hX, hO, hF⟩ := is_terminal_false.mp h
  simp [fullScore, hX, hO, hF]

lemma vals_range9 (d : Nat) (b : Board) (p : Symb) :
    vals d b p (List.range 9) =
      (childIdxs b).map fun i => fullScore d (succ_board b i p) p.opp := rfl

/-- The windowed correctness invariant of the pruning search: relative
to the unpruned value `fullScore`, a returned score can err only outside
the `(alpha, beta)` window, and only towards it. -/
theorem minimax_inv :
    ∀ (d : Nat) (b : Board) (p : Symb) (alpha beta : EInt) (lm : Option Nat)
      (s : Int) (m : Option Nat),
      b.length = 9 → alpha < beta →
      minimax_pruning d b p alpha beta lm = .ok (s, m) →
      toE s ≤ max alpha (toE (fullScore d b p)) ∧
      min beta (toE (fullScore d b p)) ≤ toE s := by
  intro d
  induction d with
  | zero =>
    intro b p alpha beta lm s m hb hab h
    suffices hs : s = fullScore 0 b p by
      subst hs
      exact ⟨le_max_right _ _, min_le_right _ _⟩
    cases lm with
    | none =>
      cases hT : is_terminal b with
      | true => rw [minimax_terminal_none hT] at h; cases h
      | false => rw [minimax_zero_none hT] at h; cases h
    | some i =>
      cases hX : is_winner b Symb.X with
      | true => rw [minimax_winX hX] at h; cases h; rw [fullScore_winX hX]
      | false =>
        cases hO : is_winner b Symb.O with
        | true => rw [minimax_winO hX hO] at h; cases h; rw [fullScore_winO hX hO]
        | false =>
          cases hF : is_full b with
          | true => rw [minimax_full hX hO hF] at h; cases h; rw [fullScore_full hX hO hF]
          | false =>
            have hT : is_terminal b = false := is_terminal_false.mpr ⟨hX, hO, hF⟩
            rw [minimax_zero hT] at h; cases h; rw [fullScore_zero hT]
  | succ d' IH =>
    intro b p alpha beta lm s m hb hab h
    cases hT : is_terminal b with
    | true =>
      suffices hs : s = fullScore (d' + 1) b p by
        subst hs
        exact ⟨le_max_right _ _, min_le_right _ _⟩
      cases lm with
      | none => rw [minimax_terminal_none hT] at h; cases h
      | some i =>
        cases hX : is_winner b Symb.X with
        | true => rw [minimax_winX hX] at h; cases h; rw [fullScore_winX hX]
        | false =>
          cases hO : is_winner b Symb.O with
          | true => rw [minimax_winO hX hO] at h; cases h; rw [fullScore_winO hX hO]
          | false =>
            have hF : is_full b = true := by simpa [is_terminal, hX, hO] using hT
            rw [minimax_full hX hO hF] at h; cases h; rw [fullScore_full hX hO hF]
    | false =>
      rw [minimax_rec hT] at h
      cases habs : abLoop (minimax_pruning d') b p (List.range 9) alpha beta [] [] with
      | error err => rw [habs] at h; cases h
      | ok v =>
        obtain ⟨S, M⟩ := v
        rw [habs] at h
        cases S with
        | nil => cases h
        | cons s0 rest =>
          have hs : s = bestOf p (s0 :: rest) := by cases h; rfl
          obtain ⟨j, hj, hcj⟩ := exists_empty_index hb (is_terminal_false.mp hT).2.2
          have hvne : vals d' b p (List.range 9) ≠ [] := vals_ne_nil hj hcj
          have hfs : fullScore (d' + 1) b p = bestOf p (vals d' b p (List.range 9)) := by
            rw [fullScore_rec hT, vals_range9]
          cases p with
          | X =>
            obtain ⟨h1, h2⟩ := abLoop_inv_X d' b hb IH (List.range 9) alpha beta
              (s0 :: rest) M hab habs
            rw [hfs, hs]
            have hbX : bestOf Symb.X (s0 :: rest) = listMin (s0 :: rest) := by
              simp [bestOf]
            have hbV : bestOf Symb.X (vals d' b Symb.X (List.range 9)) =
                listMin (vals d' b Symb.X (List.range 9)) := by simp [bestOf]
            rw [hbX, hbV]
            exact ⟨(h2 hvne).2, h1 _ (listMin_mem (by simp))⟩
          | O =>
            obtain ⟨h1, h2⟩ := abLoop_inv_O d' b hb IH (List.range 9) alpha beta
              (s0 :: rest) M hab habs
            rw [hfs, hs]
            have hbO : bestOf Symb.O (s0 :: rest) = listMax (s0 :: rest) := by
              simp [bestOf]
            have hbV : bestOf Symb.O (vals d' b Symb.O (List.range 9)) =
                listMax (vals d' b Symb.O (List.range 9)) := by simp [bestOf]
            rw [hbO, hbV]
            exact ⟨h1 _ (listMax_mem (by simp)), (h2 hvne).2⟩

lemma getD_mem {α : Type} : ∀ (l : List α) (j : Nat) (dflt : α), j < l.length →
    l.getD j dflt ∈ l
  | a :: t, 0, dflt, _ => by simp
  | a :: t, j + 1, dflt, h => by
    rw [List.getD_cons_succ]
    exact List.mem_cons_of_mem _ (getD_mem t j dflt (by simpa using h))

/-- Python `scores.index(value)` finds the first position holding `value`. -/
lemma indexOf_spec (l : List Int) (a : Int) (h : a ∈ l) :
    l.indexOf a < l.length ∧ l.getD (l.indexOf a) 0 = a ∧
      ∀ k, k < l.indexOf a → l.getD k 0 ≠ a := by
  induction l with
  | nil => cases h
  | cons c t IH =>
    by_cases hca : c = a
    · subst hca
      rw [List.indexOf_cons_self]
      exact ⟨by simp, rfl, fun k hk => absurd hk (Nat.not_lt_zero k)⟩
    · have hmem : a ∈ t := by
        rcases List.mem_cons.mp h with rfl | h2
        · exact absurd rfl hca
        · exact h2
      obtain ⟨h1, h2, h3⟩ := IH hmem
      rw [List.indexOf_cons_ne t hca]
      refine ⟨by simpa using h1, by simpa using h2, ?_⟩
      intro k hk
      cases k with
      | zero => simpa using hca
      | succ k' =>
        rw [List.getD_cons_succ]
        exact h3 k' (Nat.lt_of_succ_lt_succ hk)

/-- The board of the immediate-win scenario: `[O,O,_,X,X,_,_,_,_]`. -/
def bImm : Board := [.o, .o, .e, .x, .x, .e, .e, .e, .e]

/-- A board on which `"X"` has the top row. -/
def bXwin : Board := [.x, .x, .x, .o, .o, .e, .e, .e, .e]

/-- A board on which `"O"` has the top row (and `"X"` no line). -/
def bOwin : Board := [.o, .o, .o, .x, .x, .e, .e, .e, .x]

/-- A full board without a winner. -/
def bDraw : Board := [.x, .o, .x, .x, .o, .o, .o, .x, .x]

/-- A non-terminal board whose only empty cell is index `8`. -/
def bLast : Board := [.x, .o, .x, .x, .o, .o, .o, .x, .e]

/-- C1: for every board, mover symbol, and depth, the score returned by
`minimax_pruning` called at the root with `alpha = -inf` and
`beta = +inf` equals the score of the unpruned full-width minimax with
the same terminal scoring, depth-0 cutoff and ascending move order:
pruning never changes the root score. -/
theorem claim1_pruning_preserves_root_score (d : Nat) (b : Board) (p : Symb)
    (lm : Option Nat) (s : Int) (m : Option Nat) (hb : b.length = 9)
    (h : minimax_pruning d b p ⊥ ⊤ lm = .ok (s, m)) :
    s = fullScore d b p := by
  obtain ⟨h1, h2⟩ := minimax_inv d b p ⊥ ⊤ lm s m hb bot_lt_top h
  rw [max_eq_right bot_le] at h1
  rw [min_eq_right le_top] at h2
  exact le_antisymm (toE_le_toE.mp h1) (toE_le_toE.mp h2)

/-- Witness for C1: the pruned root score on the immediate-win board at
depth 1 coincides with the unpruned minimax score. -/
theorem claim1_witness : (100 : Int) = fullScore 1 bImm Symb.O :=
  claim1_pruning_preserves_root_score 1 bImm Symb.O none 100 (some 3) rfl rfl

/-- C2 (amended): in recursive invocations (`last_move` a cell index),
an `"X"`-win board scores `-100` with move `None` at every depth, an
`"O"`-win board (without an `"X"` win) scores `100` with move `None`,
and a full winnerless board scores `0` with move `None`; the top-level
call with the default `last_move = None` instead raises `TypeError`. -/
theorem claim2_terminal_scoring (b : Board) (p : Symb) (d : Nat) (alpha beta : EInt)
    (i : Nat) :
    (is_winner b Symb.X = true →
      minimax_pruning d b p alpha beta (some i) = .ok (-100, none)) ∧
    (is_winner b Symb.X = false → is_winner b Symb.O = true →
      minimax_pruning d b p alpha beta (some i) = .ok (100, none)) ∧
    (is_winner b Symb.X = false → is_winner b Symb.O = false → is_full b = true →
      minimax_pruning d b p alpha beta (some i) = .ok (0, none)) :=
  ⟨fun hX => minimax_winX hX d p alpha beta i,
   fun hX hO => minimax_winO hX hO d p alpha beta i,
   fun hX hO hF => minimax_full hX hO hF d p alpha beta i⟩

/-- Counterexample to C2 as stated: on an `"X"`-win board the top-level
call (default `last_move = None`) raises `TypeError` instead of
returning `(-100, None)`. -/
theorem claim2_counterexample :
    minimax_pruning 0 bXwin Symb.X ⊥ ⊤ none = .error Err.typeError ∧
    (Except.error Err.typeError : Except Err (Int × Option Nat)) ≠
      .ok (-100, none) :=
  ⟨rfl, fun h => Except.noConfusion h⟩

/-- Witness for C2 on the three concrete terminal boards. -/
theorem claim2_witness :
    minimax_pruning 2 bXwin Symb.O ⊥ ⊤ (some 0) = .ok (-100, none) ∧
    minimax_pruning 2 bOwin Symb.X ⊥ ⊤ (some 0) = .ok (100, none) ∧
    minimax_pruning 2 bDraw Symb.X ⊥ ⊤ (some 0) = .ok (0, none) :=
  ⟨(claim2_terminal_scoring bXwin Symb.O 2 ⊥ ⊤ 0).1 (by decide),
   (claim2_terminal_scoring bOwin Symb.X 2 ⊥ ⊤ 0).2.1 (by decide) (by decide),
   (claim2_terminal_scoring bDraw Symb.X 2 ⊥ ⊤ 0).2.2 (by decide) (by decide) (by decide)⟩

/-- C3 (amended): with `depth == 0` on a non-terminal board, a recursive
invocation (`last_move` a cell index) returns move `None` and the static
evaluation of the mover's opponent on that exact board; the top-level
call with the default `last_move = None` instead raises `TypeError`. -/
theorem claim3_depth_zero_cutoff (b : Board) (p : Symb) (alpha beta : EInt) (i : Nat)
    (h : is_terminal b = false) :
    minimax_pruning 0 b p alpha beta (some i) = .ok (evaluate b p.opp, none) :=
  minimax_zero h p alpha beta i

/-- Counterexample to C3 as stated: at depth 0 on a non-terminal board,
the top-level call raises `TypeError` rather than returning the
evaluation. -/
theorem claim3_counterexample :
    minimax_pruning 0 bImm Symb.O ⊥ ⊤ none = .error Err.typeError ∧
    (Except.error Err.typeError : Except Err (Int × Option Nat)) ≠
      .ok (evaluate bImm Symb.X, none) :=
  ⟨rfl, fun h => Except.noConfusion h⟩

/-- Witness for C3: depth 0 on the immediate-win board, mover `"O"`,
returns `evaluate` of `"X"`. -/
theorem claim3_witness :
    minimax_pruning 0 bImm Symb.O ⊥ ⊤ (some 2) = .ok (evaluate bImm Symb.O.opp, none) :=
  claim3_depth_zero_cutoff bImm Symb.O ⊥ ⊤ 2 (by decide)

/-- Positional weight of a cell: 4 for the center, 3 for a corner, 2 for
an edge. -/
def cellWeight (i : Nat) : Int :=
  if i = 4 then 4 else if i = 0 ∨ i = 2 ∨ i = 6 ∨ i = 8 then 3 else 2

set_option maxHeartbeats 2000000 in
/-- C4: `State.evaluate(symbol)` is the weighted sum over cells occupied
by `symbol` (center 4, corners 3, edges 2), times `-1` for `"X"` and
`+1` for `"O"`. -/
theorem claim4_evaluate_weights (b : Board) (p : Symb) :
    evaluate b p = (if p = Symb.X then (-1 : Int) else 1) *
      ∑ i ∈ Finset.range 9, (if cellAt b i = p.cell then cellWeight i else 0) := by
  unfold evaluate cellWeight
  simp only [Finset.sum_range_succ, Finset.sum_range_zero, List.foldl_cons, List.foldl_nil]
  norm_num
  split_ifs <;> ring

/-- C5 (amended): with `depth > 0` on a non-terminal 9-cell board, the
returned move `m` is a 1-based cell number: `1 ≤ m ≤ 9` and cell `m - 1`
is Empty (the code stores `i + 1`, not the 0-based index `i`); calls
that take a terminal or depth-0 branch and return at all (recursive
invocations) return move `None`. -/
theorem claim5_move_validity (b : Board) (p : Symb) (alpha beta : EInt)
    (hb : b.length = 9) :
    (∀ d lm s mv, is_terminal b = false →
      minimax_pruning (d + 1) b p alpha beta lm = .ok (s, mv) →
      ∃ k, mv = some k ∧ 1 ≤ k ∧ k ≤ 9 ∧ cellAt b (k - 1) = Cell.e) ∧
    (∀ d i s mv, (is_terminal b = true ∨ d = 0) →
      minimax_pruning d b p alpha beta (some i) = .ok (s, mv) → mv = none) := by
  constructor
  · intro d lm s mv hT h
    rw [minimax_rec hT] at h
    cases habs : abLoop (minimax_pruning d) b p (List.range 9) alpha beta [] [] with
    | error err => rw [habs] at h; cases h
    | ok v =>
      obtain ⟨S, M⟩ := v
      rw [habs] at h
      cases S with
      | nil => cases h
      | cons s0 rest =>
        have hmv : mv = some (M.getD ((s0 :: rest).indexOf (bestOf p (s0 :: rest))) 0) := by
          cases h; rfl
        obtain ⟨_, hmove, hlen, _⟩ := abLoop_mem _ _ _ _ _ _ _ _ habs
        obtain ⟨hjlt, _, _⟩ := indexOf_spec (s0 :: rest) (bestOf p (s0 :: rest))
          (bestOf_mem (by simp))
        have hjM : (s0 :: rest).indexOf (bestOf p (s0 :: rest)) < M.length := by
          rw [← hlen]; exact hjlt
        have hmvM : M.getD ((s0 :: rest).indexOf (bestOf p (s0 :: rest))) 0 ∈ M :=
          getD_mem M _ 0 hjM
        obtain ⟨i, hi, hci, hform⟩ := hmove _ hmvM
        have hi9 : i < 9 := List.mem_range.mp hi
        refine ⟨i + 1, by rw [hmv, hform], by omega, by omega, by simpa using hci⟩
  · intro d i s mv hcase h
    rcases hcase with hT | rfl
    · cases hX : is_winner b Symb.X with
      | true => rw [minimax_winX hX] at h; cases h; rfl
      | false =>
        cases hO : is_winner b Symb.O with
        | true => rw [minimax_winO hX hO] at h; cases h; rfl
        | false =>
          have hF : is_full b = true := by simpa [is_terminal, hX, hO] using hT
          rw [minimax_full hX hO hF] at h; cases h; rfl
    · cases hX : is_winner b Symb.X with
      | true => rw [minimax_winX hX] at h; cases h; rfl
      | false =>
        cases hO : is_winner b Symb.O with
        | true => rw [minimax_winO hX hO] at h; cases h; rfl
        | false =>
          cases hF : is_full b with
          | true => rw [minimax_full hX hO hF] at h; cases h; rfl
          | false =>
            rw [minimax_zero (is_terminal_false.mpr ⟨hX, hO, hF⟩)] at h; cases h; rfl

/-- Counterexample to C5 as stated: on the board whose only empty cell
is index 8, the search returns move `9`, which is not a cell index in
`0..8`. -/
theorem claim5_counterexample :
    minimax_pruning 1 bLast Symb.X ⊥ ⊤ none = .ok (0, some 9) ∧ ¬(9 ≤ 8) :=
  ⟨rfl, by decide⟩

/-- Witness for C5 on the immediate-win board (recursive phase) and its
depth-0 cutoff (move `None`). -/
theorem claim5_witness :
    (∃ k, (some 3 : Option Nat) = some k ∧ 1 ≤ k ∧ k ≤ 9 ∧
      cellAt bImm (k - 1) = Cell.e) ∧
    (none : Option Nat) = none :=
  ⟨(claim5_move_validity bImm Symb.O ⊥ ⊤ rfl).1 0 none 100 (some 3) (by decide) rfl,
   (claim5_move_validity bImm Symb.O ⊥ ⊤ rfl).2 0 2 (-6) none (Or.inr rfl) (by rfl)⟩

/-- C6 (amended): on `[O,O,_,X,X,_,_,_,_]` with mover `"O"` and any
depth ≥ 1, the default-window search returns score 100 and move `3`, the
1-based number of cell index 2 that completes O's top row. -/
theorem claim6_immediate_win (d : Nat) :
    minimax_pruning (d + 1) bImm Symb.O ⊥ ⊤ none = .ok (100, some 3) := by
  have hT : is_terminal bImm = false := by decide
  rw [minimax_rec hT]
  have hrange : List.range 9 = [0, 1, 2, 3, 4, 5, 6, 7, 8] := rfl
  rw [hrange]
  have h0 : cellAt bImm 0 ≠ Cell.e := by decide
  have h1 : cellAt bImm 1 ≠ Cell.e := by decide
  have h2 : cellAt bImm 2 = Cell.e := by decide
  rw [abLoop_skip h0, abLoop_skip h1]
  have hr : minimax_pruning d (succ_board bImm 2 Symb.O) Symb.O.opp ⊥ ⊤ (some 2) =
      .ok (100, none) :=
    minimax_winO (by decide) (by decide) d Symb.O.opp ⊥ ⊤ 2
  have hbk : ¬betaUp Symb.O ⊤ 100 ≤ alphaUp Symb.O ⊥ 100 := by
    rw [betaUp_O, alphaUp_O, max_eq_right bot_le]
    exact not_le.mpr (toE_lt_top 100)
  rw [abLoop_cont h2 hr hbk]
  simp only [List.nil_append]
  rw [abLoop_acc]
  obtain ⟨S', M', habs⟩ := abLoop_total (minimax_pruning d) bImm Symb.O [3, 4, 5, 6, 7, 8]
    (alphaUp Symb.O ⊥ 100) (betaUp Symb.O ⊤ 100)
    (fun i hi hci a' b' => minimax_total d _ _ a' b' (some i)
      (by rw [succ_board_length]; rfl) (by intro hcon; cases hcon))
  rw [habs]
  have hall : ∀ a ∈ S', a ≤ 100 := by
    intro a ha
    obtain ⟨i, a', b', m', hi, hci, hri⟩ := (abLoop_mem _ _ _ _ _ _ _ _ habs).1 a ha
    exact (minimax_bound d _ _ _ _ _ _ _ hri).2
  have hbO : bestOf Symb.O (100 :: S') = listMax (100 :: S') := rfl
  have hbest : bestOf Symb.O (100 :: S') = 100 := by
    rw [hbO]
    refine le_antisymm (listMax_le (by simp) ?_) (le_listMax (by simp))
    intro a ha
    rcases List.mem_cons.mp ha with rfl | ha
    · exact le_refl _
    · exact hall a ha
  dsimp only [List.singleton_append]
  rw [hbest, List.indexOf_cons_self]
  rfl

/-- Counterexample to C6 as stated: the engine returns move `3` (the
1-based number of cell 2), not move index `2`. -/
theorem claim6_counterexample :
    minimax_pruning 1 bImm Symb.O ⊥ ⊤ none = .ok (100, some 3) ∧
    (Except.ok ((100 : Int), some 3) : Except Err (Int × Option Nat)) ≠
      .ok (100, some 2) :=
  ⟨rfl, by simp⟩

/-- C7: in the recursive case, mover `"X"` is assigned the minimum and
mover `"O"` the maximum of the explored child scores, and the returned
move sits at the first position of the score list attaining that
extremum: an equal later score never displaces the current best. -/
theorem claim7_extremum_first_tiebreak (d : Nat) (b : Board) (p : Symb)
    (alpha beta : EInt) (lm : Option Nat) (S : List Int) (M : List Nat)
    (hb : b.length = 9) (hT : is_terminal b = false)
    (habs : abLoop (minimax_pruning d) b p (List.range 9) alpha beta [] [] = .ok (S, M)) :
    ∃ j, j < S.length ∧ S.getD j 0 = bestOf p S ∧
      (∀ k, k < j → S.getD k 0 ≠ bestOf p S) ∧
      minimax_pruning (d + 1) b p alpha beta lm = .ok (bestOf p S, some (M.getD j 0)) := by
  have hSne : S ≠ [] := by
    intro hS
    obtain ⟨i, hi, hci⟩ := exists_empty_index hb (is_terminal_false.mp hT).2.2
    exact (abLoop_mem _ _ _ _ _ _ _ _ habs).2.2.2 hS i hi hci
  obtain ⟨s0, rest, rfl⟩ := List.exists_cons_of_ne_nil hSne
  obtain ⟨hjlt, hget, hfirst⟩ :=
    indexOf_spec (s0 :: rest) (bestOf p (s0 :: rest)) (bestOf_mem (by simp))
  refine ⟨(s0 :: rest).indexOf (bestOf p (s0 :: rest)), hjlt, hget, hfirst, ?_⟩
  rw [minimax_rec hT, habs]

/-- Witness for C7 on the immediate-win board at depth 1: the explored
scores are `[100, 7, 8, 7, 8]`, the maximum 100 first occurs at
position 0, and the returned move is `3`. -/
theorem claim7_witness :
    ∃ j, j < ([100, 7, 8, 7, 8] : List Int).length ∧
      ([100, 7, 8, 7, 8] : List Int).getD j 0 = bestOf Symb.O [100, 7, 8, 7, 8] ∧
      (∀ k, k < j →
        ([100, 7, 8, 7, 8] : List Int).getD k 0 ≠ bestOf Symb.O [100, 7, 8, 7, 8]) ∧
      minimax_pruning 1 bImm Symb.O ⊥ ⊤ none =
        .ok (bestOf Symb.O [100, 7, 8, 7, 8], some (([3, 6, 7, 8, 9] : List Nat).getD j 0)) :=
  claim7_extremum_first_tiebreak 0 bImm Symb.O ⊥ ⊤ none [100, 7, 8, 7, 8] [3, 6, 7, 8, 9]
    rfl (by decide) rfl

/-- C8: a successor board is the parent's cell list with exactly the
played (previously Empty) cell set to the mover's symbol: same length,
the played cell now holds the mover, and every other cell is unchanged —
the caller's board value is untouched. -/
theorem claim8_successor_frame (b : Board) (i : Nat) (p : Symb)
    (hi : i < b.length) (hc : cellAt b i = Cell.e) :
    (succ_board b i p).length = b.length ∧
    cellAt (succ_board b i p) i = p.cell ∧
    ∀ j, j ≠ i → cellAt (succ_board b i p) j = cellAt b j := by
  refine ⟨succ_board_length b i p, ?_, ?_⟩
  · unfold cellAt succ_board
    rw [List.getD_eq_getElem?_getD, List.getElem?_set_eq_of_lt _ hi]
    rfl
  · intro j hj
    unfold cellAt succ_board
    rw [List.getD_eq_getElem?_getD, List.getElem?_set_ne (Ne.symm hj),
      ← List.getD_eq_getElem?_getD]

/-- Witness for C8: playing `"O"` at cell 2 of the immediate-win board
keeps length 9, writes `"O"` at cell 2, and leaves cell 5 as it was. -/
theorem claim8_witness :
    (succ_board bImm 2 Symb.O).length = bImm.length ∧
    cellAt (succ_board bImm 2 Symb.O) 2 = Symb.O.cell ∧
    cellAt (succ_board bImm 2 Symb.O) 5 = cellAt bImm 5 :=
  ⟨(claim8_successor_frame bImm 2 Symb.O (by decide) (by decide)).1,
   (claim8_successor_frame bImm 2 Symb.O (by decide) (by decide)).2.1,
   (claim8_successor_frame bImm 2 Symb.O (by decide) (by decide)).2.2 5 (by decide)⟩

/-- C9: on a terminal board, the top-level call (default
`last_move = None`) raises `TypeError` while formatting the trace line
instead of returning the terminal score; the terminal branches return
normally (score with move `None`) exactly in recursive calls, where
`last_move` is a cell index. -/
theorem claim9_toplevel_terminal_typeerror (d : Nat) (b : Board) (p : Symb)
    (alpha beta : EInt) (hT : is_terminal b = true) :
    minimax_pruning d b p alpha beta none = .error Err.typeError ∧
    ∀ i, ∃ s, minimax_pruning d b p alpha beta (some i) = .ok (s, none) := by
  refine ⟨minimax_terminal_none hT d p alpha beta, fun i => ?_⟩
  cases hX : is_winner b Symb.X with
  | true => exact ⟨-100, minimax_winX hX d p alpha beta i⟩
  | false =>
    cases hO : is_winner b Symb.O with
    | true => exact ⟨100, minimax_winO hX hO d p alpha beta i⟩
    | false =>
      have hF : is_full b = true := by simpa [is_terminal, hX, hO] using hT
      exact ⟨0, minimax_full hX hO hF d p alpha beta i⟩

/-- Witness for C9 on the `"X"`-win board at depth 0. -/
theorem claim9_witness :
    minimax_pruning 0 bXwin Symb.X ⊥ ⊤ none = .error Err.typeError ∧
    ∃ s, minimax_pruning 0 bXwin Symb.X ⊥ ⊤ (some 4) = .ok (s, none) :=
  ⟨(claim9_toplevel_terminal_typeerror 0 bXwin Symb.X ⊥ ⊤ (by decide)).1,
   (claim9_toplevel_terminal_typeerror 0 bXwin Symb.X ⊥ ⊤ (by decide)).2 4⟩

/-- C10: in the recursive phase on a non-terminal 9-cell board there is
at least one empty cell, the loop returns a non-empty score list, and
the `min`/`max`-of-empty-list error branch is unreachable. -/
theorem claim10_scores_nonempty (d : Nat) (b : Board) (p : Symb) (alpha beta : EInt)
    (lm : Option Nat) (hb : b.length = 9) (hT : is_terminal b = false) :
    (∃ i, i ∈ List.range 9 ∧ cellAt b i = Cell.e) ∧
    (∃ S M, abLoop (minimax_pruning d) b p (List.range 9) alpha beta [] [] = .ok (S, M) ∧
      S ≠ []) ∧
    minimax_pruning (d + 1) b p alpha beta lm ≠ .error Err.valueError := by
  obtain ⟨i, hi, hci⟩ := exists_empty_index hb (is_terminal_false.mp hT).2.2
  obtain ⟨S, M, habs⟩ := abLoop_total (minimax_pruning d) b p (List.range 9) alpha beta
    (fun j hj hcj a' b' => minimax_total d _ _ a' b' (some j)
      (by rw [succ_board_length, hb]) (by intro hcon; cases hcon))
  have hSne : S ≠ [] := fun hS => (abLoop_mem _ _ _ _ _ _ _ _ habs).2.2.2 hS i hi hci
  obtain ⟨s0, rest, rfl⟩ := List.exists_cons_of_ne_nil hSne
  refine ⟨⟨i, hi, hci⟩, ⟨s0 :: rest, M, habs, hSne⟩, ?_⟩
  rw [minimax_rec hT, habs]
  intro hcon
  cases hcon

/-- Witness for C10 on the immediate-win board. -/
theorem claim10_witness :
    (∃ i, i ∈ List.range 9 ∧ cellAt bImm i = Cell.e) ∧
    (∃ S M, abLoop (minimax_pruning 0) bImm Symb.O (List.range 9) ⊥ ⊤ [] [] =
      .ok (S, M) ∧ S ≠ []) ∧
    minimax_pruning 1 bImm Symb.O ⊥ ⊤ none ≠ .error Err.valueError :=
  claim10_scores_nonempty 0 bImm Symb.O ⊥ ⊤ none rfl (by decide)
